import Mathlib

/-!
# Verification of the brainfuck interpreter (src/index.js)

Shallow embedding of the two entry points of the repository:

* `brainfuck`       — the text-mode interpreter (`function brainfuck` in the source),
* `brainfuckBytes`  — the byte-mode interpreter (`brainfuck.bytes` in the source).

Conventions of the embedding:

* A JS string is a `List Char` (program) or `List Nat` (input, each element a
  UTF-16 code unit as returned by `charCodeAt`).
* The 30,000-cell `Uint8Array` tape is a function `Nat → Nat`; a store into a
  `Uint8Array` truncates modulo 256, which is made explicit at each write.
* The JS `Map` bracket map is an association list, newest `set` first.
* Exceptions become `Except Err`.
* The source's step counter `steps` (checked as `++steps > maxSteps` before each
  instruction) is represented by the remaining budget `rem = maxSteps - steps`;
  the check `++steps > maxSteps` is exactly `rem = 0`.
* The optional `onOutput` callback defaults to absent in the source; the model
  corresponds to a run with no observer callback configured.
-/

/-- The four errors thrown by the interpreter, each carrying the datum that the
source interpolates into the error message (offending position, or configured
limit). -/
inductive Err : Type where
  | unmatchedClose : Nat → Err
  | unmatchedOpen : Nat → Err
  | stepLimit : Nat → Err
  | outputLimit : Nat → Err
deriving DecidableEq

set_option maxRecDepth 8000

instance {ε α : Type} [DecidableEq ε] [DecidableEq α] : DecidableEq (Except ε α) := fun x y =>
  match x, y with
  | .ok a, .ok b =>
    if h : a = b then .isTrue (by rw [h]) else .isFalse (by simp [h])
  | .ok _, .error _ => .isFalse (by simp)
  | .error _, .ok _ => .isFalse (by simp)
  | .error e, .error f =>
    if h : e = f then .isTrue (by rw [h]) else .isFalse (by simp [h])

/-- The bracket map (`bracketMap` in the source): an association list from
instruction position to the position of the matching bracket, newest entry
first (mirroring `Map.set`, whose latest write wins on lookup). -/
abbrev BMap := List (Nat × Nat)

/-- The bracket-matching scan (src/index.js lines 22–38 and, verbatim the same,
lines 109–125): walk the program left to right keeping a stack of pending `[`
positions; on `]` with an empty stack fail at once with the closing position;
pair a popped `[` with its `]` in the map; after the scan, a non-empty stack
fails with the position on top of the stack (`stack[stack.length - 1]`). -/
def scanAux : List Char → Nat → List Nat → BMap → Except Err BMap
  | [], _, stack, m =>
    match stack with
    | [] => .ok m
    | top :: _ => .error (.unmatchedOpen top)
  | c :: rest, i, stack, m =>
    if c = '[' then
      scanAux rest (i + 1) (i :: stack) m
    else if c = ']' then
      match stack with
      | [] => .error (.unmatchedClose i)
      | openPos :: stack' =>
        scanAux rest (i + 1) stack' ((i, openPos) :: (openPos, i) :: m)
    else
      scanAux rest (i + 1) stack m

/-- Build the bracket map for a whole program (the pre-pass of both entry
points, starting from an empty stack and empty map). -/
def buildBracketMap (code : List Char) : Except Err BMap :=
  scanAux code 0 [] []

/-- The pending-open-bracket stack left by scanning a piece of program, or
`none` if the scan meets a `]` while the stack is empty.  This is the stack
component of `scanAux`, kept separately so that theorems can speak about "the
stack the scan had reached at position i". -/
def pendingRun : List Char → Nat → List Nat → Option (List Nat)
  | [], _, stack => some stack
  | c :: rest, i, stack =>
    if c = '[' then
      pendingRun rest (i + 1) (i :: stack)
    else if c = ']' then
      match stack with
      | [] => none
      | _ :: stack' => pendingRun rest (i + 1) stack'
    else
      pendingRun rest (i + 1) stack

/-- `tape.length` in the source: the tape is `new Uint8Array(30000)`. -/
def tapeLen : Nat := 30000

/-- `(tape[dp] + 1) & 0xff` on an 8-bit cell value: increment modulo 256. -/
def incCell (v : Nat) : Nat := (v + 1) % 256

/-- `(tape[dp] - 1 + 256) & 0xff` on a cell value `v ∈ [0, 255]`: since
`v - 1 + 256 = v + 255` there, this is decrement modulo 256. -/
def decCell (v : Nat) : Nat := (v + 255) % 256

/-- Store `v` at index `i` of a tape. -/
def updTape (t : Nat → Nat) (i v : Nat) : Nat → Nat :=
  fun j => if j = i then v else t j

/-- The machine state of the text-mode interpreter: data pointer, instruction
pointer, tape, input cursor, and the accumulated output string. -/
structure StT where
  dp : Nat
  ip : Nat
  tape : Nat → Nat
  inputPos : Nat
  output : List Char

/-- The initial state: everything zero, tape all zeros, output empty. -/
def initStT : StT :=
  { dp := 0, ip := 0, tape := fun _ => 0, inputPos := 0, output := [] }

/-- One iteration of the text-mode `switch` (src/index.js lines 45–80),
including the unconditional `ip++` after the instruction's effect.
`code.getD st.ip ' '` is `code[ip]` (the loop guard keeps `ip` in range).
On `,`, the `Uint8Array` store truncates the code unit modulo 256.
On a jump, a missing map entry (impossible after a successful scan, see the
jump-table safety theorem) would make the JS `while` guard false and end the
run; `getD code.length` reproduces exactly that exit. -/
def execStepT (code : List Char) (bm : BMap) (input : List Nat) (st : StT) : StT :=
  match code.getD st.ip ' ' with
  | '>' => { st with dp := (st.dp + 1) % tapeLen, ip := st.ip + 1 }
  | '<' => { st with dp := (st.dp + (tapeLen - 1)) % tapeLen, ip := st.ip + 1 }
  | '+' => { st with tape := updTape st.tape st.dp (incCell (st.tape st.dp)), ip := st.ip + 1 }
  | '-' => { st with tape := updTape st.tape st.dp (decCell (st.tape st.dp)), ip := st.ip + 1 }
  | '.' => { st with output := st.output ++ [Char.ofNat (st.tape st.dp)], ip := st.ip + 1 }
  | ',' =>
    if st.inputPos < input.length then
      { st with tape := updTape st.tape st.dp (input.getD st.inputPos 0 % 256),
                inputPos := st.inputPos + 1, ip := st.ip + 1 }
    else
      { st with tape := updTape st.tape st.dp 0, ip := st.ip + 1 }
  | '[' =>
    if st.tape st.dp = 0 then
      { st with ip := (bm.lookup st.ip).getD code.length + 1 }
    else
      { st with ip := st.ip + 1 }
  | ']' =>
    if st.tape st.dp ≠ 0 then
      { st with ip := (bm.lookup st.ip).getD code.length + 1 }
    else
      { st with ip := st.ip + 1 }
  | _ => { st with ip := st.ip + 1 }

/-- The text-mode `while (ip < code.length)` loop (src/index.js lines 40–81).
`rem` is the remaining step budget `maxSteps - steps`; the source's
`if (++steps > maxSteps) throw` is exactly the `rem = 0` test. -/
def loopT (code : List Char) (bm : BMap) (input : List Nat) (maxSteps : Nat) :
    Nat → StT → Except Err (List Char)
  | rem, st =>
    if st.ip < code.length then
      match rem with
      | 0 => .error (.stepLimit maxSteps)
      | r + 1 => loopT code bm input maxSteps r (execStepT code bm input st)
    else
      .ok st.output

/-- The text-mode entry point `brainfuck(code, input, opts)`: build the bracket
map (propagating its error), then run the loop from the initial state with a
full step budget.  The source defaults are `input = ''` and
`maxSteps = 1000000`; here both are explicit arguments. -/
def brainfuck (code : List Char) (input : List Nat) (maxSteps : Nat) :
    Except Err (List Char) :=
  match buildBracketMap code with
  | .error e => .error e
  | .ok bm => loopT code bm input maxSteps maxSteps initStT

/-- The machine state of the byte-mode interpreter: as `StT`, but the output is
the array of raw byte values pushed by `.`. -/
structure StB where
  dp : Nat
  ip : Nat
  tape : Nat → Nat
  inputPos : Nat
  output : List Nat

/-- The initial byte-mode state. -/
def initStB : StB :=
  { dp := 0, ip := 0, tape := fun _ => 0, inputPos := 0, output := [] }

/-- One iteration of the byte-mode `switch` (src/index.js lines 132–171).
Identical to the text-mode step except at `.`: the output length is first
checked against `maxOutput` (`if (output.length >= maxOutput) throw`), and on
success the raw byte `tape[dp]` is pushed.  The run is modelled with no
`onOutput` observer configured (the source default). -/
def execStepB (code : List Char) (bm : BMap) (input : List Nat) (maxOutput : Nat)
    (st : StB) : Except Err StB :=
  match code.getD st.ip ' ' with
  | '>' => .ok { st with dp := (st.dp + 1) % tapeLen, ip := st.ip + 1 }
  | '<' => .ok { st with dp := (st.dp + (tapeLen - 1)) % tapeLen, ip := st.ip + 1 }
  | '+' => .ok { st with tape := updTape st.tape st.dp (incCell (st.tape st.dp)), ip := st.ip + 1 }
  | '-' => .ok { st with tape := updTape st.tape st.dp (decCell (st.tape st.dp)), ip := st.ip + 1 }
  | '.' =>
    if st.output.length ≥ maxOutput then
      .error (.outputLimit maxOutput)
    else
      .ok { st with output := st.output ++ [st.tape st.dp], ip := st.ip + 1 }
  | ',' =>
    if st.inputPos < input.length then
      .ok { st with tape := updTape st.tape st.dp (input.getD st.inputPos 0 % 256),
                    inputPos := st.inputPos + 1, ip := st.ip + 1 }
    else
      .ok { st with tape := updTape st.tape st.dp 0, ip := st.ip + 1 }
  | '[' =>
    if st.tape st.dp = 0 then
      .ok { st with ip := (bm.lookup st.ip).getD code.length + 1 }
    else
      .ok { st with ip := st.ip + 1 }
  | ']' =>
    if st.tape st.dp ≠ 0 then
      .ok { st with ip := (bm.lookup st.ip).getD code.length + 1 }
    else
      .ok { st with ip := st.ip + 1 }
  | _ => .ok { st with ip := st.ip + 1 }

/-- The byte-mode `while` loop (src/index.js lines 127–172), with the same
`rem = maxSteps - steps` budget as `loopT`; an error raised inside a step
(the output-limit check) aborts the run. -/
def loopB (code : List Char) (bm : BMap) (input : List Nat) (maxSteps maxOutput : Nat) :
    Nat → StB → Except Err (List Nat)
  | rem, st =>
    if st.ip < code.length then
      match rem with
      | 0 => .error (.stepLimit maxSteps)
      | r + 1 =>
        match execStepB code bm input maxOutput st with
        | .error e => .error e
        | .ok st' => loopB code bm input maxSteps maxOutput r st'
    else
      .ok st.output

/-- The byte-mode entry point `brainfuck.bytes(code, input, opts)`; source
defaults are `input = ''`, `maxSteps = 1000000`, `maxOutput = 1000000`,
`onOutput = undefined`. -/
def brainfuckBytes (code : List Char) (input : List Nat) (maxSteps maxOutput : Nat) :
    Except Err (List Nat) :=
  match buildBracketMap code with
  | .error e => .error e
  | .ok bm => loopB code bm input maxSteps maxOutput maxSteps initStB

/-- Reference runner with no step limit: execute at most `fuel` instructions
of the text-mode machine and return the final output if the program halts
(IP past the end) within them, `none` otherwise.  `runFor code bm input n st`
is `some _` exactly when the natural step count of the run from `st` is at
most `n`. -/
def runFor (code : List Char) (bm : BMap) (input : List Nat) :
    Nat → StT → Option (List Char)
  | fuel, st =>
    if st.ip < code.length then
      match fuel with
      | 0 => none
      | f + 1 => runFor code bm input f (execStepT code bm input st)
    else
      some st.output

/-- The eight meaningful instruction characters; every other character is
inert (the `default` branch of the `switch`). -/
def isInstr (c : Char) : Bool :=
  c = '>' || c = '<' || c = '+' || c = '-' || c = '.' || c = ',' || c = '[' || c = ']'

/-- All cells of a tape hold 8-bit values. -/
def TapeOk (t : Nat → Nat) : Prop := ∀ i, t i < 256

/-! ## Per-instruction step lemmas -/

theorem stepT_gt (code : List Char) (bm : BMap) (input : List Nat) (st : StT)
    (h : code.getD st.ip ' ' = '>') :
    execStepT code bm input st = { st with dp := (st.dp + 1) % tapeLen, ip := st.ip + 1 } := by
  unfold execStepT; rw [h]; rfl

theorem stepT_lt (code : List Char) (bm : BMap) (input : List Nat) (st : StT)
    (h : code.getD st.ip ' ' = '<') :
    execStepT code bm input st
      = { st with dp := (st.dp + (tapeLen - 1)) % tapeLen, ip := st.ip + 1 } := by
  unfold execStepT; rw [h]; rfl

theorem stepT_plus (code : List Char) (bm : BMap) (input : List Nat) (st : StT)
    (h : code.getD st.ip ' ' = '+') :
    execStepT code bm input st
      = { st with tape := updTape st.tape st.dp (incCell (st.tape st.dp)), ip := st.ip + 1 } := by
  unfold execStepT; rw [h]; rfl

theorem stepT_minus (code : List Char) (bm : BMap) (input : List Nat) (st : StT)
    (h : code.getD st.ip ' ' = '-') :
    execStepT code bm input st
      = { st with tape := updTape st.tape st.dp (decCell (st.tape st.dp)), ip := st.ip + 1 } := by
  unfold execStepT; rw [h]; rfl

theorem stepT_dot (code : List Char) (bm : BMap) (input : List Nat) (st : StT)
    (h : code.getD st.ip ' ' = '.') :
    execStepT code bm input st
      = { st with output := st.output ++ [Char.ofNat (st.tape st.dp)], ip := st.ip + 1 } := by
  unfold execStepT; rw [h]; rfl

theorem stepT_comma_lt (code : List Char) (bm : BMap) (input : List Nat) (st : StT)
    (h : code.getD st.ip ' ' = ',') (hin : st.inputPos < input.length) :
    execStepT code bm input st
      = { st with tape := updTape st.tape st.dp (input.getD st.inputPos 0 % 256),
                  inputPos := st.inputPos + 1, ip := st.ip + 1 } := by
  unfold execStepT; rw [h]; simp [hin]

theorem stepT_comma_ge (code : List Char) (bm : BMap) (input : List Nat) (st : StT)
    (h : code.getD st.ip ' ' = ',') (hin : input.length ≤ st.inputPos) :
    execStepT code bm input st
      = { st with tape := updTape st.tape st.dp 0, ip := st.ip + 1 } := by
  unfold execStepT; rw [h]; simp [Nat.not_lt.mpr hin]

theorem stepT_open_zero (code : List Char) (bm : BMap) (input : List Nat) (st : StT)
    (h : code.getD st.ip ' ' = '[') (hz : st.tape st.dp = 0) :
    execStepT code bm input st
      = { st with ip := (bm.lookup st.ip).getD code.length + 1 } := by
  unfold execStepT; rw [h]; simp [hz]

theorem stepT_open_nonzero (code : List Char) (bm : BMap) (input : List Nat) (st : StT)
    (h : code.getD st.ip ' ' = '[') (hz : st.tape st.dp ≠ 0) :
    execStepT code bm input st = { st with ip := st.ip + 1 } := by
  unfold execStepT; rw [h]; simp [hz]

theorem stepT_close_nonzero (code : List Char) (bm : BMap) (input : List Nat) (st : StT)
    (h : code.getD st.ip ' ' = ']') (hz : st.tape st.dp ≠ 0) :
    execStepT code bm input st
      = { st with ip := (bm.lookup st.ip).getD code.length + 1 } := by
  unfold execStepT; rw [h]; simp [hz]

theorem stepT_close_zero (code : List Char) (bm : BMap) (input : List Nat) (st : StT)
    (h : code.getD st.ip ' ' = ']') (hz : st.tape st.dp = 0) :
    execStepT code bm input st = { st with ip := st.ip + 1 } := by
  unfold execStepT; rw [h]; simp [hz]

theorem stepT_other (code : List Char) (bm : BMap) (input : List Nat) (st : StT)
    (h : isInstr (code.getD st.ip ' ') = false) :
    execStepT code bm input st = { st with ip := st.ip + 1 } := by
  unfold execStepT
  split
  case _ heq => rw [heq] at h; exact absurd h (by decide)
  case _ heq => rw [heq] at h; exact absurd h (by decide)
  case _ heq => rw [heq] at h; exact absurd h (by decide)
  case _ heq => rw [heq] at h; exact absurd h (by decide)
  case _ heq => rw [heq] at h; exact absurd h (by decide)
  case _ heq => rw [heq] at h; exact absurd h (by decide)
  case _ heq => rw [heq] at h; exact absurd h (by decide)
  case _ heq => rw [heq] at h; exact absurd h (by decide)
  case _ => rfl

theorem stepB_gt (code : List Char) (bm : BMap) (input : List Nat) (MO : Nat) (st : StB)
    (h : code.getD st.ip ' ' = '>') :
    execStepB code bm input MO st
      = .ok { st with dp := (st.dp + 1) % tapeLen, ip := st.ip + 1 } := by
  unfold execStepB; rw [h]; rfl

theorem stepB_lt (code : List Char) (bm : BMap) (input : List Nat) (MO : Nat) (st : StB)
    (h : code.getD st.ip ' ' = '<') :
    execStepB code bm input MO st
      = .ok { st with dp := (st.dp + (tapeLen - 1)) % tapeLen, ip := st.ip + 1 } := by
  unfold execStepB; rw [h]; rfl

theorem stepB_plus (code : List Char) (bm : BMap) (input : List Nat) (MO : Nat) (st : StB)
    (h : code.getD st.ip ' ' = '+') :
    execStepB code bm input MO st
      = .ok { st with tape := updTape st.tape st.dp (incCell (st.tape st.dp)),
                      ip := st.ip + 1 } := by
  unfold execStepB; rw [h]; rfl

theorem stepB_minus (code : List Char) (bm : BMap) (input : List Nat) (MO : Nat) (st : StB)
    (h : code.getD st.ip ' ' = '-') :
    execStepB code bm input MO st
      = .ok { st with tape := updTape st.tape st.dp (decCell (st.tape st.dp)),
                      ip := st.ip + 1 } := by
  unfold execStepB; rw [h]; rfl

theorem stepB_dot_err (code : List Char) (bm : BMap) (input : List Nat) (MO : Nat) (st : StB)
    (h : code.getD st.ip ' ' = '.') (hlen : MO ≤ st.output.length) :
    execStepB code bm input MO st = .error (.outputLimit MO) := by
  unfold execStepB; rw [h]; simp [hlen]

theorem stepB_dot_ok (code : List Char) (bm : BMap) (input : List Nat) (MO : Nat) (st : StB)
    (h : code.getD st.ip ' ' = '.') (hlen : st.output.length < MO) :
    execStepB code bm input MO st
      = .ok { st with output := st.output ++ [st.tape st.dp], ip := st.ip + 1 } := by
  unfold execStepB; rw [h]; simp [Nat.not_le.mpr hlen]

theorem stepB_comma_lt (code : List Char) (bm : BMap) (input : List Nat) (MO : Nat) (st : StB)
    (h : code.getD st.ip ' ' = ',') (hin : st.inputPos < input.length) :
    execStepB code bm input MO st
      = .ok { st with tape := updTape st.tape st.dp (input.getD st.inputPos 0 % 256),
                      inputPos := st.inputPos + 1, ip := st.ip + 1 } := by
  unfold execStepB; rw [h]; simp [hin]

theorem stepB_comma_ge (code : List Char) (bm : BMap) (input : List Nat) (MO : Nat) (st : StB)
    (h : code.getD st.ip ' ' = ',') (hin : input.length ≤ st.inputPos) :
    execStepB code bm input MO st
      = .ok { st with tape := updTape st.tape st.dp 0, ip := st.ip + 1 } := by
  unfold execStepB; rw [h]; simp [Nat.not_lt.mpr hin]

theorem stepB_open_zero (code : List Char) (bm : BMap) (input : List Nat) (MO : Nat) (st : StB)
    (h : code.getD st.ip ' ' = '[') (hz : st.tape st.dp = 0) :
    execStepB code bm input MO st
      = .ok { st with ip := (bm.lookup st.ip).getD code.length + 1 } := by
  unfold execStepB; rw [h]; simp [hz]

theorem stepB_open_nonzero (code : List Char) (bm : BMap) (input : List Nat) (MO : Nat) (st : StB)
    (h : code.getD st.ip ' ' = '[') (hz : st.tape st.dp ≠ 0) :
    execStepB code bm input MO st = .ok { st with ip := st.ip + 1 } := by
  unfold execStepB; rw [h]; simp [hz]

theorem stepB_close_nonzero (code : List Char) (bm : BMap) (input : List Nat) (MO : Nat) (st : StB)
    (h : code.getD st.ip ' ' = ']') (hz : st.tape st.dp ≠ 0) :
    execStepB code bm input MO st
      = .ok { st with ip := (bm.lookup st.ip).getD code.length + 1 } := by
  unfold execStepB; rw [h]; simp [hz]

theorem stepB_close_zero (code : List Char) (bm : BMap) (input : List Nat) (MO : Nat) (st : StB)
    (h : code.getD st.ip ' ' = ']') (hz : st.tape st.dp = 0) :
    execStepB code bm input MO st = .ok { st with ip := st.ip + 1 } := by
  unfold execStepB; rw [h]; simp [hz]

theorem stepB_other (code : List Char) (bm : BMap) (input : List Nat) (MO : Nat) (st : StB)
    (h : isInstr (code.getD st.ip ' ') = false) :
    execStepB code bm input MO st = .ok { st with ip := st.ip + 1 } := by
  unfold execStepB
  split
  case _ heq => rw [heq] at h; exact absurd h (by decide)
  case _ heq => rw [heq] at h; exact absurd h (by decide)
  case _ heq => rw [heq] at h; exact absurd h (by decide)
  case _ heq => rw [heq] at h; exact absurd h (by decide)
  case _ heq => rw [heq] at h; exact absurd h (by decide)
  case _ heq => rw [heq] at h; exact absurd h (by decide)
  case _ heq => rw [heq] at h; exact absurd h (by decide)
  case _ heq => rw [heq] at h; exact absurd h (by decide)
  case _ => rfl

/-! ## Loop unfolding and characterization lemmas -/

theorem loopT_exit (code : List Char) (bm : BMap) (input : List Nat) (M rem : Nat) (st : StT)
    (h : ¬ st.ip < code.length) :
    loopT code bm input M rem st = .ok st.output := by
  unfold loopT; rw [if_neg h]

theorem loopT_zero (code : List Char) (bm : BMap) (input : List Nat) (M : Nat) (st : StT)
    (h : st.ip < code.length) :
    loopT code bm input M 0 st = .error (.stepLimit M) := by
  unfold loopT; rw [if_pos h]

theorem loopT_succ (code : List Char) (bm : BMap) (input : List Nat) (M r : Nat) (st : StT)
    (h : st.ip < code.length) :
    loopT code bm input M (r + 1) st
      = loopT code bm input M r (execStepT code bm input st) := by
  conv => lhs; unfold loopT
  rw [if_pos h]

theorem loopB_exit (code : List Char) (bm : BMap) (input : List Nat) (M MO rem : Nat) (st : StB)
    (h : ¬ st.ip < code.length) :
    loopB code bm input M MO rem st = .ok st.output := by
  unfold loopB; rw [if_neg h]

theorem loopB_zero (code : List Char) (bm : BMap) (input : List Nat) (M MO : Nat) (st : StB)
    (h : st.ip < code.length) :
    loopB code bm input M MO 0 st = .error (.stepLimit M) := by
  unfold loopB; rw [if_pos h]

theorem loopB_succ (code : List Char) (bm : BMap) (input : List Nat) (M MO r : Nat) (st : StB)
    (h : st.ip < code.length) :
    loopB code bm input M MO (r + 1) st
      = match execStepB code bm input MO st with
        | .error e => .error e
        | .ok st' => loopB code bm input M MO r st' := by
  conv => lhs; unfold loopB
  rw [if_pos h]

theorem runFor_exit (code : List Char) (bm : BMap) (input : List Nat) (fuel : Nat) (st : StT)
    (h : ¬ st.ip < code.length) :
    runFor code bm input fuel st = some st.output := by
  unfold runFor; rw [if_neg h]

theorem runFor_zero (code : List Char) (bm : BMap) (input : List Nat) (st : StT)
    (h : st.ip < code.length) :
    runFor code bm input 0 st = none := by
  unfold runFor; rw [if_pos h]

theorem runFor_succ (code : List Char) (bm : BMap) (input : List Nat) (f : Nat) (st : StT)
    (h : st.ip < code.length) :
    runFor code bm input (f + 1) st = runFor code bm input f (execStepT code bm input st) := by
  conv => lhs; unfold runFor
  rw [if_pos h]

/-- The text-mode loop can only fail with the step-limit error carrying the
configured limit. -/
theorem loopT_error_eq (code : List Char) (bm : BMap) (input : List Nat) (M : Nat) :
    ∀ rem st e, loopT code bm input M rem st = .error e → e = .stepLimit M := by
  intro rem
  induction rem with
  | zero =>
    intro st e h
    by_cases hip : st.ip < code.length
    · rw [loopT_zero code bm input M st hip] at h
      simpa using h.symm
    · rw [loopT_exit code bm input M 0 st hip] at h
      exact absurd h (by simp)
  | succ r ih =>
    intro st e h
    by_cases hip : st.ip < code.length
    · rw [loopT_succ code bm input M r st hip] at h
      exact ih _ _ h
    · rw [loopT_exit code bm input M (r + 1) st hip] at h
      exact absurd h (by simp)

/-- The text-mode loop succeeds with a given output exactly when the
limit-free reference runner halts with that output within the same number of
instructions. -/
theorem loopT_ok_iff_runFor (code : List Char) (bm : BMap) (input : List Nat) (M : Nat) :
    ∀ rem st out, loopT code bm input M rem st = .ok out
      ↔ runFor code bm input rem st = some out := by
  intro rem
  induction rem with
  | zero =>
    intro st out
    by_cases hip : st.ip < code.length
    · rw [loopT_zero code bm input M st hip, runFor_zero code bm input st hip]
      simp
    · rw [loopT_exit code bm input M 0 st hip, runFor_exit code bm input 0 st hip]
      simp
  | succ r ih =>
    intro st out
    by_cases hip : st.ip < code.length
    · rw [loopT_succ code bm input M r st hip, runFor_succ code bm input r st hip]
      exact ih _ _
    · rw [loopT_exit code bm input M (r + 1) st hip, runFor_exit code bm input (r + 1) st hip]
      simp

/-- The text-mode loop raises the step-limit error exactly when the limit-free
reference runner does not halt within the budget. -/
theorem loopT_stepLimit_iff_runFor (code : List Char) (bm : BMap) (input : List Nat)
    (M rem : Nat) (st : StT) :
    loopT code bm input M rem st = .error (.stepLimit M)
      ↔ runFor code bm input rem st = none := by
  constructor
  · intro h
    cases hr : runFor code bm input rem st with
    | none => rfl
    | some out =>
      rw [← loopT_ok_iff_runFor code bm input M rem st out] at hr
      rw [h] at hr
      exact absurd hr (by simp)
  · intro h
    cases hl : loopT code bm input M rem st with
    | error e => rw [loopT_error_eq code bm input M rem st e hl]
    | ok out =>
      rw [loopT_ok_iff_runFor code bm input M rem st out] at hl
      rw [h] at hl
      exact absurd hl (by simp)

/-- The bracket scan can only fail with one of the two unmatched-bracket
errors. -/
theorem scanAux_error_eq : ∀ (rem : List Char) (i : Nat) (stack : List Nat) (m : BMap) (e : Err),
    scanAux rem i stack m = .error e →
    (∃ p, e = .unmatchedClose p) ∨ (∃ p, e = .unmatchedOpen p) := by
  intro rem
  induction rem with
  | nil =>
    intro i stack m e h
    unfold scanAux at h
    match stack with
    | [] => exact absurd h (by simp)
    | top :: _ => right; exact ⟨top, by simpa using h.symm⟩
  | cons c rest ih =>
    intro i stack m e h
    unfold scanAux at h
    by_cases hc : c = '['
    · rw [if_pos hc] at h
      exact ih _ _ _ _ h
    · rw [if_neg hc] at h
      by_cases hc2 : c = ']'
      · rw [if_pos hc2] at h
        match stack with
        | [] => left; exact ⟨i, by simpa using h.symm⟩
        | openPos :: stack' => exact ih _ _ _ _ h
      · rw [if_neg hc2] at h
        exact ih _ _ _ _ h

theorem brainfuck_eq_loopT (code : List Char) (input : List Nat) (M : Nat) (bm : BMap)
    (h : buildBracketMap code = .ok bm) :
    brainfuck code input M = loopT code bm input M M initStT := by
  unfold brainfuck; rw [h]

theorem brainfuck_scan_err (code : List Char) (input : List Nat) (M : Nat) (e : Err)
    (h : buildBracketMap code = .error e) :
    brainfuck code input M = .error e := by
  unfold brainfuck; rw [h]

theorem brainfuckBytes_eq_loopB (code : List Char) (input : List Nat) (M MO : Nat) (bm : BMap)
    (h : buildBracketMap code = .ok bm) :
    brainfuckBytes code input M MO = loopB code bm input M MO M initStB := by
  unfold brainfuckBytes; rw [h]

theorem brainfuckBytes_scan_err (code : List Char) (input : List Nat) (M MO : Nat) (e : Err)
    (h : buildBracketMap code = .error e) :
    brainfuckBytes code input M MO = .error e := by
  unfold brainfuckBytes; rw [h]

/-- Claim C2: for a bracket-valid program, the text-mode run raises the
step-limit error (naming the configured limit `M`) exactly when the limit-free
reference runner `runFor` cannot finish the program within `M` executed
instructions; if the natural run does finish within `M` instructions the entry
point completes normally with that run's output; and a run that raises the
step-limit error returns no output. -/
theorem step_limit_exact (code : List Char) (input : List Nat) (M : Nat) (bm : BMap)
    (h : buildBracketMap code = .ok bm) :
    (brainfuck code input M = .error (.stepLimit M)
      ↔ runFor code bm input M initStT = none)
    ∧ (∀ out, runFor code bm input M initStT = some out
        → brainfuck code input M = .ok out)
    ∧ (brainfuck code input M = .error (.stepLimit M)
        → ∀ out, brainfuck code input M ≠ .ok out) := by
  rw [brainfuck_eq_loopT code input M bm h]
  refine ⟨loopT_stepLimit_iff_runFor code bm input M M initStT, ?_, ?_⟩
  · intro out hout
    exact (loopT_ok_iff_runFor code bm input M M initStT out).mpr hout
  · intro herr out hok
    rw [herr] at hok
    exact absurd hok (by simp)

/-- Witness for C2: the one-instruction program `+` is bracket-valid, halts in
one step, and with `maxSteps = 1` completes normally with empty output. -/
theorem step_limit_exact_witness :
    buildBracketMap ['+'] = .ok [] ∧ brainfuck ['+'] [] 1 = .ok [] :=
  ⟨by decide, (step_limit_exact ['+'] [] 1 [] (by decide)).2.1 [] (by decide)⟩

theorem getD_mem_of_lt (l : List Char) (n : Nat) (d : Char) (h : n < l.length) :
    l.getD n d ∈ l := by
  rw [List.getD_eq_getElem?_getD, List.getElem?_eq_getElem h]
  exact List.getElem_mem h

theorem not_bracket_of_not_instr (c : Char) (h : isInstr c = false) :
    c ≠ '[' ∧ c ≠ ']' := by
  constructor <;> intro hc <;> rw [hc] at h <;> simp [isInstr] at h

/-- A scan over bracket-free source starting from an empty stack returns the
accumulated map unchanged. -/
theorem scanAux_no_brackets :
    ∀ (rem : List Char) (i : Nat) (m : BMap),
      (∀ c ∈ rem, c ≠ '[' ∧ c ≠ ']') → scanAux rem i [] m = .ok m := by
  intro rem
  induction rem with
  | nil => intro i m _; rfl
  | cons c rest ih =>
    intro i m hb
    unfold scanAux
    rw [if_neg (hb c (by simp)).1, if_neg (hb c (by simp)).2]
    exact ih (i + 1) m (fun c hc => hb c (by simp [hc]))

/-- On a program of inert characters only, the loop walks the IP straight to
the end: it succeeds with the unchanged output if the remaining program fits
in the remaining step budget, and hits the step limit otherwise. -/
theorem inert_loopT (code : List Char) (bm : BMap) (input : List Nat) (M : Nat)
    (h : ∀ c ∈ code, isInstr c = false) :
    ∀ (rem : Nat) (st : StT),
      (code.length - st.ip ≤ rem → loopT code bm input M rem st = .ok st.output)
      ∧ (st.ip < code.length → rem < code.length - st.ip →
          loopT code bm input M rem st = .error (.stepLimit M)) := by
  intro rem
  induction rem with
  | zero =>
    intro st
    constructor
    · intro hle
      exact loopT_exit code bm input M 0 st (by omega)
    · intro hip _
      exact loopT_zero code bm input M st hip
  | succ r ih =>
    intro st
    by_cases hip : st.ip < code.length
    · have hinert : isInstr (code.getD st.ip ' ') = false :=
        h _ (getD_mem_of_lt code st.ip ' ' hip)
      have hstep := stepT_other code bm input st hinert
      constructor
      · intro hle
        rw [loopT_succ code bm input M r st hip, hstep]
        have := (ih { st with ip := st.ip + 1 }).1 (by simp; omega)
        simpa using this
      · intro _ hlt
        rw [loopT_succ code bm input M r st hip, hstep]
        exact (ih { st with ip := st.ip + 1 }).2 (by simp; omega) (by simp; omega)
    · constructor
      · intro _
        exact loopT_exit code bm input M (r + 1) st hip
      · intro hip2 _
        exact absurd hip2 hip

/-- Claim C7 (amended): a program consisting only of non-instruction
characters produces empty output whenever its length fits within `maxSteps`
(each inert character consuming one step); if the program is longer than
`maxSteps` the run instead raises the step-limit error, again producing no
output. -/
theorem inert_program (code : List Char) (input : List Nat) (M : Nat)
    (h : ∀ c ∈ code, isInstr c = false) :
    (code.length ≤ M → brainfuck code input M = .ok [])
    ∧ (M < code.length → brainfuck code input M = .error (.stepLimit M)) := by
  have hscan : buildBracketMap code = .ok [] :=
    scanAux_no_brackets code 0 []
      (fun c hc => not_bracket_of_not_instr c (h c hc))
  rw [brainfuck_eq_loopT code input M [] hscan]
  have hmain := inert_loopT code [] input M h M initStT
  constructor
  · intro hle
    exact hmain.1 (by simp [initStT]; omega)
  · intro hlt
    by_cases hz : code.length = 0
    · omega
    · exact hmain.2 (by simp [initStT]; omega) (by simp [initStT]; omega)

/-- Witness for C7 (amended): the inert program `"a"` with `maxSteps = 1`
returns empty output. -/
theorem inert_program_witness :
    (∀ c ∈ ['a'], isInstr c = false) ∧ brainfuck ['a'] [] 1 = .ok [] :=
  ⟨by decide, (inert_program ['a'] [] 1 (by decide)).1 (by decide)⟩

/-- Counterexample to C7 as stated: the two-character inert program `"ab"`
run with `maxSteps = 1` (a positive configured limit) does not return empty
output — it raises the step-limit error, because inert characters count as
steps. -/
theorem inert_program_cex :
    (∀ c ∈ ['a', 'b'], isInstr c = false)
    ∧ brainfuck ['a', 'b'] [] 1 = .error (.stepLimit 1)
    ∧ brainfuck ['a', 'b'] [] 1 ≠ .ok [] := by
  refine ⟨by decide, by decide, by decide⟩

/-! ## Cell arithmetic -/

theorem incCell_lt (v : Nat) : incCell v < 256 := Nat.mod_lt _ (by norm_num)

theorem decCell_lt (v : Nat) : decCell v < 256 := Nat.mod_lt _ (by norm_num)

theorem incCell_iterate (n : Nat) : ∀ v : Nat, v < 256 → incCell^[n] v = (v + n) % 256 := by
  induction n with
  | zero => intro v hv; simpa using (Nat.mod_eq_of_lt hv).symm
  | succ k ih =>
    intro v hv
    rw [Function.iterate_succ_apply', ih v hv]
    unfold incCell
    rw [Nat.mod_add_mod]
    ring_nf

theorem decCell_iterate (n : Nat) : ∀ v : Nat, v < 256 → decCell^[n] v = (v + 255 * n) % 256 := by
  induction n with
  | zero => intro v hv; simpa using (Nat.mod_eq_of_lt hv).symm
  | succ k ih =>
    intro v hv
    rw [Function.iterate_succ_apply', ih v hv]
    unfold decCell
    rw [Nat.mod_add_mod]
    ring_nf

theorem TapeOk_upd (t : Nat → Nat) (i v : Nat) (hT : TapeOk t) (hv : v < 256) :
    TapeOk (updTape t i v) := by
  intro j
  unfold updTape
  split
  · exact hv
  · exact hT j

/-- A text-mode step keeps every tape cell an 8-bit value. -/
theorem execStepT_tapeOk (code : List Char) (bm : BMap) (input : List Nat) (st : StT)
    (hT : TapeOk st.tape) : TapeOk (execStepT code bm input st).tape := by
  unfold execStepT
  split
  case _ => exact hT
  case _ => exact hT
  case _ => exact TapeOk_upd _ _ _ hT (incCell_lt _)
  case _ => exact TapeOk_upd _ _ _ hT (decCell_lt _)
  case _ => exact hT
  case _ =>
    split
    · exact TapeOk_upd _ _ _ hT (Nat.mod_lt _ (by norm_num))
    · exact TapeOk_upd _ _ _ hT (by norm_num)
  case _ => split <;> exact hT
  case _ => split <;> exact hT
  case _ => exact hT

/-- Claim C8: a single `+` (resp. `-`) updates the current cell by the
modulo-256 increment `incCell` (resp. decrement `decCell`); on 8-bit values
these act as `±1 (mod 256)` on the integers, so 256 of them in succession are
the identity.  The tape invariant (all cells `< 256`, true initially and
preserved by every step) makes every reachable cell value an 8-bit value. -/
theorem cell_wraparound (code : List Char) (bm : BMap) (input : List Nat) :
    (∀ v : Nat, v < 256 →
      incCell^[256] v = v ∧ decCell^[256] v = v
      ∧ (incCell v : Int) = ((v : Int) + 1) % 256
      ∧ (decCell v : Int) = ((v : Int) - 1) % 256)
    ∧ (∀ st : StT, code.getD st.ip ' ' = '+' →
        (execStepT code bm input st).tape = updTape st.tape st.dp (incCell (st.tape st.dp)))
    ∧ (∀ st : StT, code.getD st.ip ' ' = '-' →
        (execStepT code bm input st).tape = updTape st.tape st.dp (decCell (st.tape st.dp)))
    ∧ (∀ st : StT, TapeOk st.tape → TapeOk (execStepT code bm input st).tape)
    ∧ TapeOk initStT.tape := by
  refine ⟨?_, ?_, ?_, ?_, ?_⟩
  · intro v hv
    refine ⟨?_, ?_, ?_, ?_⟩
    · rw [incCell_iterate 256 v hv, Nat.add_mod_right, Nat.mod_eq_of_lt hv]
    · rw [decCell_iterate 256 v hv, Nat.add_mul_mod_self_right, Nat.mod_eq_of_lt hv]
    · unfold incCell; omega
    · unfold decCell; omega
  · intro st h
    rw [stepT_plus code bm input st h]
  · intro st h
    rw [stepT_minus code bm input st h]
  · exact fun st hT => execStepT_tapeOk code bm input st hT
  · intro i
    simp [initStT]

/-- Witness for C8: the value 7 round-trips under 256 increments and 256
decrements. -/
theorem cell_wraparound_witness :
    (7 : Nat) < 256 ∧ incCell^[256] 7 = 7 ∧ decCell^[256] 7 = 7 :=
  ⟨by decide, ((cell_wraparound [] [] []).1 7 (by decide)).1,
    ((cell_wraparound [] [] []).1 7 (by decide)).2.1⟩

/-! ## Jump semantics -/

/-- Claim C1 (amended): after the unconditional IP increment that follows a
taken jump, control rests exactly ONE PAST the target (matching) bracket:
a `[` on a zero cell resumes just after its `]` (skipping the body), and a `]`
on a non-zero cell resumes just after its `[` (the first instruction of the
body) — the target bracket itself is not re-executed; the condition of the
loop is re-tested at the `]`.  Both engines behave identically. -/
theorem jump_lands_one_past (code : List Char) (bm : BMap) (input : List Nat) (MO : Nat)
    (t : StT) (b : StB) (j : Nat) :
    (code.getD t.ip ' ' = '[' → t.tape t.dp = 0 → bm.lookup t.ip = some j →
      (execStepT code bm input t).ip = j + 1)
    ∧ (code.getD t.ip ' ' = ']' → t.tape t.dp ≠ 0 → bm.lookup t.ip = some j →
      (execStepT code bm input t).ip = j + 1)
    ∧ (code.getD b.ip ' ' = '[' → b.tape b.dp = 0 → bm.lookup b.ip = some j →
      execStepB code bm input MO b = .ok { b with ip := j + 1 })
    ∧ (code.getD b.ip ' ' = ']' → b.tape b.dp ≠ 0 → bm.lookup b.ip = some j →
      execStepB code bm input MO b = .ok { b with ip := j + 1 }) := by
  refine ⟨?_, ?_, ?_, ?_⟩
  · intro h hz hj
    rw [stepT_open_zero code bm input t h hz]
    simp [hj]
  · intro h hz hj
    rw [stepT_close_nonzero code bm input t h hz]
    simp [hj]
  · intro h hz hj
    rw [stepB_open_zero code bm input MO b h hz, hj]
    rfl
  · intro h hz hj
    rw [stepB_close_nonzero code bm input MO b h hz, hj]
    rfl

/-- Witness for C1 (amended): on the program `"[]"` with a zero cell, the `[`
at position 0 (whose matching bracket is at position 1) leaves the IP at
position 2 after the increment. -/
theorem jump_lands_one_past_witness :
    (['[', ']'].getD 0 ' ' = '[' ∧ initStT.tape initStT.dp = 0
      ∧ List.lookup 0 [((1 : Nat), (0 : Nat)), (0, 1)] = some 1)
    ∧ (execStepT ['[', ']'] [(1, 0), (0, 1)] [] initStT).ip = 1 + 1 :=
  ⟨⟨by decide, by decide, by decide⟩,
    (jump_lands_one_past ['[', ']'] [(1, 0), (0, 1)] [] 0 initStT initStB 1).1
      (by decide) (by decide) (by decide)⟩

/-- Counterexample to C1 as stated: on `"[]"` (jump table mapping 0 ↔ 1) with
the initial zero cell, the `[` at position 0 takes its jump, and after the
unconditional increment the IP is 2 — one past the matching `]` at position 1,
not on it. -/
theorem jump_lands_one_past_cex :
    buildBracketMap ['[', ']'] = .ok [(1, 0), (0, 1)]
    ∧ ['[', ']'].getD 0 ' ' = '['
    ∧ initStT.tape initStT.dp = 0
    ∧ List.lookup 0 [((1 : Nat), (0 : Nat)), (0, 1)] = some 1
    ∧ (execStepT ['[', ']'] [(1, 0), (0, 1)] [] initStT).ip = 2
    ∧ (2 : Nat) ≠ 1 := by decide

/-! ## Read (`,`) semantics -/

/-- Claim C6 (amended): with the input cursor at or past the input length, a
read stores 0 in the current cell and leaves the cursor unchanged (hence, the
cursor staying put, a repeated read at EOF gives the same result); with the
cursor strictly below the input length, a read stores the input element
reduced modulo 256 and advances the cursor by exactly one.  Both engines
behave identically. -/
theorem read_step (code : List Char) (bm : BMap) (input : List Nat) (MO : Nat)
    (t : StT) (b : StB) :
    (code.getD t.ip ' ' = ',' → input.length ≤ t.inputPos →
      (execStepT code bm input t).tape t.dp = 0
      ∧ (execStepT code bm input t).inputPos = t.inputPos)
    ∧ (code.getD t.ip ' ' = ',' → t.inputPos < input.length →
      (execStepT code bm input t).tape t.dp = input.getD t.inputPos 0 % 256
      ∧ (execStepT code bm input t).inputPos = t.inputPos + 1)
    ∧ (code.getD b.ip ' ' = ',' → input.length ≤ b.inputPos →
      ∃ b', execStepB code bm input MO b = .ok b'
        ∧ b'.tape b.dp = 0 ∧ b'.inputPos = b.inputPos)
    ∧ (code.getD b.ip ' ' = ',' → b.inputPos < input.length →
      ∃ b', execStepB code bm input MO b = .ok b'
        ∧ b'.tape b.dp = input.getD b.inputPos 0 % 256
        ∧ b'.inputPos = b.inputPos + 1) := by
  refine ⟨?_, ?_, ?_, ?_⟩
  · intro h hin
    rw [stepT_comma_ge code bm input t h hin]
    simp [updTape]
  · intro h hin
    rw [stepT_comma_lt code bm input t h hin]
    simp [updTape]
  · intro h hin
    rw [stepB_comma_ge code bm input MO b h hin]
    exact ⟨_, rfl, by simp [updTape], rfl⟩
  · intro h hin
    rw [stepB_comma_lt code bm input MO b h hin]
    exact ⟨_, rfl, by simp [updTape], rfl⟩

/-- Witness for C6 (amended): reading from the exhausted empty input stores 0
and leaves the cursor at 0; reading the available element 65 stores 65 and
advances the cursor to 1. -/
theorem read_step_witness :
    ([','].getD 0 ' ' = ','
      ∧ (execStepT [','] [] [] initStT).tape 0 = 0
      ∧ (execStepT [','] [] [] initStT).inputPos = 0)
    ∧ ((execStepT [','] [] [65] initStT).tape 0 = [65].getD 0 0 % 256
      ∧ (execStepT [','] [] [65] initStT).inputPos = 0 + 1) :=
  ⟨⟨by decide,
      (read_step [','] [] [] 0 initStT initStB).1 (by decide) (by decide)⟩,
    (read_step [','] [] [65] 0 initStT initStB).2.1 (by decide) (by decide)⟩

/-- Counterexample to C6 as stated: with input consisting of the single
UTF-16 code unit 256 (the character `"Ā"`), an in-range read does not store
"that input element": it stores 0 (the element reduced modulo 256), as the
echo program `",."` exhibits at the byte-mode entry point. -/
theorem read_step_cex :
    [(256 : Nat)].getD 0 0 = 256
    ∧ (execStepT [','] [] [256] initStT).tape 0 = 0
    ∧ (0 : Nat) ≠ 256
    ∧ brainfuckBytes [',', '.'] [256] 10 10 = .ok [0] := by decide

/-- Claim C10: an in-range read stores the input element's UTF-16 code unit
reduced modulo 256 (both engines). -/
theorem read_truncates (code : List Char) (bm : BMap) (input : List Nat) (MO : Nat)
    (t : StT) (b : StB) :
    (code.getD t.ip ' ' = ',' → t.inputPos < input.length →
      (execStepT code bm input t).tape t.dp = input.getD t.inputPos 0 % 256)
    ∧ (code.getD b.ip ' ' = ',' → b.inputPos < input.length →
      ∃ b', execStepB code bm input MO b = .ok b'
        ∧ b'.tape b.dp = input.getD b.inputPos 0 % 256) := by
  constructor
  · intro h hin
    rw [stepT_comma_lt code bm input t h hin]
    simp [updTape]
  · intro h hin
    rw [stepB_comma_lt code bm input MO b h hin]
    exact ⟨_, rfl, by simp [updTape]⟩

/-- Witness for C10: the input element 256 is stored truncated to
`256 % 256 = 0`, not as-is and not rejected. -/
theorem read_truncates_witness :
    ([','].getD 0 ' ' = ',' ∧ (0 : Nat) < [(256 : Nat)].length)
    ∧ (execStepT [','] [] [256] initStT).tape 0 = [(256 : Nat)].getD 0 0 % 256 :=
  ⟨⟨by decide, by decide⟩,
    (read_truncates [','] [] [256] 0 initStT initStB).1 (by decide) (by decide)⟩

/-! ## Output limit -/

/-- A byte-mode step that succeeds keeps the output length within the limit,
provided it was within the limit before: the `.` case refuses to push once the
length has reached `maxOutput`. -/
theorem execStepB_output_le (code : List Char) (bm : BMap) (input : List Nat) (MO : Nat)
    (st st' : StB) (h : execStepB code bm input MO st = .ok st')
    (hlen : st.output.length ≤ MO) : st'.output.length ≤ MO := by
  unfold execStepB at h
  split at h
  case _ => injection h with h2; subst h2; exact hlen
  case _ => injection h with h2; subst h2; exact hlen
  case _ => injection h with h2; subst h2; exact hlen
  case _ => injection h with h2; subst h2; exact hlen
  case _ =>
    split at h
    · exact absurd h (by simp)
    · rename_i hc
      injection h with h2
      subst h2
      simp only [List.length_append, List.length_singleton]
      omega
  case _ => split at h <;> (injection h with h2; subst h2; exact hlen)
  case _ => split at h <;> (injection h with h2; subst h2; exact hlen)
  case _ => split at h <;> (injection h with h2; subst h2; exact hlen)
  case _ => injection h with h2; subst h2; exact hlen

/-- The byte-mode loop never returns an output longer than the limit, if the
accumulated output starts within the limit. -/
theorem loopB_output_le (code : List Char) (bm : BMap) (input : List Nat) (M MO : Nat) :
    ∀ (rem : Nat) (st : StB) (out : List Nat),
      loopB code bm input M MO rem st = .ok out → st.output.length ≤ MO →
      out.length ≤ MO := by
  intro rem
  induction rem with
  | zero =>
    intro st out h hlen
    by_cases hip : st.ip < code.length
    · rw [loopB_zero code bm input M MO st hip] at h
      exact absurd h (by simp)
    · rw [loopB_exit code bm input M MO 0 st hip] at h
      cases h
      exact hlen
  | succ r ih =>
    intro st out h hlen
    by_cases hip : st.ip < code.length
    · rw [loopB_succ code bm input M MO r st hip] at h
      cases hstep : execStepB code bm input MO st with
      | error e => rw [hstep] at h; exact absurd h (by simp)
      | ok st' =>
        rw [hstep] at h
        exact ih st' out h (execStepB_output_le code bm input MO st st' hstep hlen)
    · rw [loopB_exit code bm input M MO (r + 1) st hip] at h
      cases h
      exact hlen

/-- Claim C4: in byte mode each write instruction first checks the accumulated
output length against `maxOutput` and raises the output-limit error naming the
limit once that length has reached it, so a successful byte-mode run never
returns more than `maxOutput` bytes; the text-mode entry point applies no
output-length cap — it can never fail with an output-limit error. -/
theorem output_limit (code : List Char) (bm : BMap) (input : List Nat) (M MO : Nat) :
    (∀ st : StB, code.getD st.ip ' ' = '.' → MO ≤ st.output.length →
      execStepB code bm input MO st = .error (.outputLimit MO))
    ∧ (∀ out, brainfuckBytes code input M MO = .ok out → out.length ≤ MO)
    ∧ (∀ L, brainfuck code input M ≠ .error (.outputLimit L)) := by
  refine ⟨?_, ?_, ?_⟩
  · intro st h hlen
    exact stepB_dot_err code bm input MO st h hlen
  · intro out h
    unfold brainfuckBytes at h
    cases hscan : buildBracketMap code with
    | error e => rw [hscan] at h; exact absurd h (by simp)
    | ok bm' =>
      rw [hscan] at h
      exact loopB_output_le code bm' input M MO M initStB out h (by simp [initStB])
  · intro L h
    unfold brainfuck at h
    cases hscan : buildBracketMap code with
    | error e =>
      rw [hscan] at h
      have he : e = .outputLimit L := by simpa using h
      rcases scanAux_error_eq code 0 [] [] e hscan with ⟨p, hp⟩ | ⟨p, hp⟩ <;>
        (rw [he] at hp; exact absurd hp (by simp))
    | ok bm' =>
      rw [hscan] at h
      have := loopT_error_eq code bm' input M M initStT _ h
      exact absurd this (by simp)

/-- Witness for C4: with `maxOutput = 0`, the very first `.` raises the
output-limit error naming 0; and text mode runs the same program fine. -/
theorem output_limit_witness :
    (['.'].getD 0 ' ' = '.' ∧ 0 ≤ initStB.output.length)
    ∧ execStepB ['.'] [] [] 0 initStB = .error (.outputLimit 0)
    ∧ brainfuck ['.'] [] 5 ≠ .error (.outputLimit 0) :=
  ⟨⟨by decide, by decide⟩,
    (output_limit ['.'] [] [] 5 0).1 initStB (by decide) (by decide),
    (output_limit ['.'] [] [] 5 0).2.2 0⟩

/-! ## Jump-table completeness -/

theorem lookup_cons_self (k v : Nat) (m : BMap) :
    List.lookup k ((k, v) :: m) = some v := by
  simp [List.lookup]

theorem lookup_cons_ne (k a v : Nat) (m : BMap) (h : k ≠ a) :
    List.lookup k ((a, v) :: m) = List.lookup k m := by
  simp [List.lookup, beq_eq_false_iff_ne.mpr h]

/-- Invariant proof for the scan: if a scan from intermediate state
`(i, stack, m)` succeeds with map `bm`, then (A) every bracket position in the
remaining source has an entry in `bm` whose value lies inside the scanned
region, (B) so does every position still on the stack, and (C) every entry of
the accumulated map survives into `bm`. -/
theorem scanAux_ok_complete :
    ∀ (rem : List Char) (i : Nat) (stack : List Nat) (m bm : BMap),
      scanAux rem i stack m = .ok bm →
      (∀ p ∈ stack, p < i) →
      stack.Pairwise (· > ·) →
      (∀ p j, List.lookup p m = some j → p < i) →
      (∀ p ∈ stack, List.lookup p m = none) →
      ((∀ k, k < rem.length → (rem.getD k ' ' = '[' ∨ rem.getD k ' ' = ']') →
          ∃ j, List.lookup (i + k) bm = some j ∧ j < i + rem.length)
        ∧ (∀ p ∈ stack, ∃ j, List.lookup p bm = some j ∧ j < i + rem.length)
        ∧ (∀ p j, List.lookup p m = some j → List.lookup p bm = some j)) := by
  intro rem
  induction rem with
  | nil =>
    intro i stack m bm h _ _ _ _
    match stack with
    | [] =>
      have hm : m = bm := by simpa [scanAux] using h
      subst hm
      exact ⟨fun k hk _ => absurd hk (by simp),
        fun p hp => absurd hp (by simp),
        fun p j hj => hj⟩
    | top :: s => exact absurd h (by simp [scanAux])
  | cons c rest ih =>
    intro i stack m bm h h1 h2 h3 h4
    unfold scanAux at h
    by_cases hc : c = '['
    · rw [if_pos hc] at h
      have h1' : ∀ p ∈ i :: stack, p < i + 1 := by
        intro p hp
        rcases List.mem_cons.mp hp with rfl | hp
        · omega
        · have := h1 p hp; omega
      have h2' : (i :: stack).Pairwise (· > ·) :=
        List.pairwise_cons.mpr ⟨fun p hp => h1 p hp, h2⟩
      have h3' : ∀ p j, List.lookup p m = some j → p < i + 1 := by
        intro p j hj; have := h3 p j hj; omega
      have h4' : ∀ p ∈ i :: stack, List.lookup p m = none := by
        intro p hp
        rcases List.mem_cons.mp hp with rfl | hp
        · cases hl : List.lookup p m with
          | none => rfl
          | some j => exact absurd (h3 p j hl) (lt_irrefl p)
        · exact h4 p hp
      obtain ⟨A, B, C⟩ := ih (i + 1) (i :: stack) m bm h h1' h2' h3' h4'
      refine ⟨?_, ?_, C⟩
      · intro k hk hbr
        cases k with
        | zero =>
          obtain ⟨j, hj, hjlt⟩ := B i (by simp)
          exact ⟨j, by simpa using hj, by simp; omega⟩
        | succ k =>
          have hk' : k < rest.length := by simpa using hk
          have hbr' : rest.getD k ' ' = '[' ∨ rest.getD k ' ' = ']' := by
            simpa [List.getD_cons_succ] using hbr
          obtain ⟨j, hj, hjlt⟩ := A k hk' hbr'
          refine ⟨j, ?_, by simp; omega⟩
          rw [show i + (k + 1) = i + 1 + k by omega]
          exact hj
      · intro p hp
        obtain ⟨j, hj, hjlt⟩ := B p (by simp [hp])
        exact ⟨j, hj, by simp; omega⟩
    · rw [if_neg hc] at h
      by_cases hc2 : c = ']'
      · rw [if_pos hc2] at h
        match stack with
        | [] => exact absurd h (by simp)
        | openPos :: stack' =>
          have hop : openPos < i := h1 openPos (by simp)
          have hgt : ∀ p ∈ stack', openPos > p := (List.pairwise_cons.mp h2).1
          have h1' : ∀ p ∈ stack', p < i + 1 := by
            intro p hp; have := h1 p (by simp [hp]); omega
          have h2' : stack'.Pairwise (· > ·) := (List.pairwise_cons.mp h2).2
          have hlook_i : List.lookup i ((i, openPos) :: (openPos, i) :: m) = some openPos :=
            lookup_cons_self i openPos _
          have hlook_op : List.lookup openPos ((i, openPos) :: (openPos, i) :: m) = some i := by
            rw [lookup_cons_ne openPos i openPos _ (by omega)]
            exact lookup_cons_self openPos i m
          have h3' : ∀ p j,
              List.lookup p ((i, openPos) :: (openPos, i) :: m) = some j → p < i + 1 := by
            intro p j hj
            by_cases hpi : p = i
            · omega
            · rw [lookup_cons_ne p i openPos _ hpi] at hj
              by_cases hpo : p = openPos
              · subst hpo; omega
              · rw [lookup_cons_ne p openPos i m hpo] at hj
                have := h3 p j hj; omega
          have h4' : ∀ p ∈ stack',
              List.lookup p ((i, openPos) :: (openPos, i) :: m) = none := by
            intro p hp
            have hpo : openPos > p := hgt p hp
            have hpi : p < i := h1 p (by simp [hp])
            rw [lookup_cons_ne p i openPos _ (by omega),
              lookup_cons_ne p openPos i m (by omega)]
            exact h4 p (by simp [hp])
          obtain ⟨A, B, C⟩ := ih (i + 1) stack' ((i, openPos) :: (openPos, i) :: m) bm
            h h1' h2' h3' h4'
          refine ⟨?_, ?_, ?_⟩
          · intro k hk hbr
            cases k with
            | zero =>
              refine ⟨openPos, by simpa using C i openPos hlook_i, by simp; omega⟩
            | succ k =>
              have hk' : k < rest.length := by simpa using hk
              have hbr' : rest.getD k ' ' = '[' ∨ rest.getD k ' ' = ']' := by
                simpa [List.getD_cons_succ] using hbr
              obtain ⟨j, hj, hjlt⟩ := A k hk' hbr'
              refine ⟨j, ?_, by simp; omega⟩
              rw [show i + (k + 1) = i + 1 + k by omega]
              exact hj
          · intro p hp
            rcases List.mem_cons.mp hp with rfl | hp'
            · exact ⟨i, C p i hlook_op, by simp⟩
            · obtain ⟨j, hj, hjlt⟩ := B p hp'
              exact ⟨j, hj, by simp; omega⟩
          · intro p j hj
            have hpi : p < i := h3 p j hj
            have hpo : p ≠ openPos := by
              intro he
              rw [he, h4 openPos (by simp)] at hj
              exact absurd hj (by simp)
            apply C
            rw [lookup_cons_ne p i openPos _ (by omega),
              lookup_cons_ne p openPos i m hpo]
            exact hj
      · rw [if_neg hc2] at h
        have h1' : ∀ p ∈ stack, p < i + 1 := by
          intro p hp; have := h1 p hp; omega
        have h3' : ∀ p j, List.lookup p m = some j → p < i + 1 := by
          intro p j hj; have := h3 p j hj; omega
        obtain ⟨A, B, C⟩ := ih (i + 1) stack m bm h h1' h2 h3' h4
        refine ⟨?_, ?_, C⟩
        · intro k hk hbr
          cases k with
          | zero =>
            exfalso
            rcases hbr with hb | hb
            · rw [List.getD_cons_zero] at hb; exact hc hb
            · rw [List.getD_cons_zero] at hb; exact hc2 hb
          | succ k =>
            have hk' : k < rest.length := by simpa using hk
            have hbr' : rest.getD k ' ' = '[' ∨ rest.getD k ' ' = ']' := by
              simpa [List.getD_cons_succ] using hbr
            obtain ⟨j, hj, hjlt⟩ := A k hk' hbr'
            refine ⟨j, ?_, by simp; omega⟩
            rw [show i + (k + 1) = i + 1 + k by omega]
            exact hj
        · intro p hp
          obtain ⟨j, hj, hjlt⟩ := B p hp
          exact ⟨j, hj, by simp; omega⟩

/-- Claim C9: if the bracket scan succeeds, then every `[` or `]` position of
the program has an entry in the jump table, and that entry is a position
strictly inside the program — so every jump-table lookup made during execution
is defined and the IP is reassigned to a valid position. -/
theorem jump_table_total (code : List Char) (bm : BMap)
    (h : buildBracketMap code = .ok bm) :
    ∀ p, p < code.length → (code.getD p ' ' = '[' ∨ code.getD p ' ' = ']') →
      ∃ j, bm.lookup p = some j ∧ j < code.length := by
  intro p hp hbr
  have := (scanAux_ok_complete code 0 [] [] bm h
    (by simp) (by simp) (by simp [List.lookup]) (by simp)).1 p hp hbr
  simpa using this

/-- Witness for C9: on `"[]"`, both bracket positions have defined jump-table
entries pointing inside the program. -/
theorem jump_table_total_witness :
    buildBracketMap ['[', ']'] = .ok [(1, 0), (0, 1)]
    ∧ (∃ j, List.lookup 0 [((1 : Nat), (0 : Nat)), (0, 1)] = some j ∧ j < 2) := by
  refine ⟨by decide, ?_⟩
  have h2 := jump_table_total ['[', ']'] [(1, 0), (0, 1)] (by decide) 0
    (by decide) (Or.inl (by decide))
  simpa using h2

/-! ## Bracket error reporting -/

theorem pendingRun_nil (i : Nat) (stack : List Nat) :
    pendingRun [] i stack = some stack := rfl

theorem pendingRun_cons_open (l : List Char) (i : Nat) (stack : List Nat) :
    pendingRun ('[' :: l) i stack = pendingRun l (i + 1) (i :: stack) := by
  conv => lhs; unfold pendingRun
  rw [if_pos rfl]

theorem pendingRun_cons_close_nil (l : List Char) (i : Nat) :
    pendingRun (']' :: l) i [] = none := by
  conv => lhs; unfold pendingRun
  rw [if_neg (by decide), if_pos rfl]

theorem pendingRun_cons_close_cons (l : List Char) (i o : Nat) (s : List Nat) :
    pendingRun (']' :: l) i (o :: s) = pendingRun l (i + 1) s := by
  conv => lhs; unfold pendingRun
  rw [if_neg (by decide), if_pos rfl]

theorem pendingRun_cons_other (c : Char) (l : List Char) (i : Nat) (stack : List Nat)
    (h1 : c ≠ '[') (h2 : c ≠ ']') :
    pendingRun (c :: l) i stack = pendingRun l (i + 1) stack := by
  conv => lhs; unfold pendingRun
  rw [if_neg h1, if_neg h2]

theorem pendingRun_append_none :
    ∀ (xs : List Char) (ys : List Char) (i : Nat) (stack : List Nat),
      pendingRun xs i stack = none → pendingRun (xs ++ ys) i stack = none := by
  intro xs
  induction xs with
  | nil => intro ys i stack h; exact absurd h (by simp [pendingRun_nil])
  | cons c rest ih =>
    intro ys i stack h
    rw [List.cons_append]
    by_cases hc : c = '['
    · subst hc
      rw [pendingRun_cons_open] at h ⊢
      exact ih ys (i + 1) (i :: stack) h
    · by_cases hc2 : c = ']'
      · subst hc2
        match stack with
        | [] => exact pendingRun_cons_close_nil _ i
        | o :: s =>
          rw [pendingRun_cons_close_cons] at h ⊢
          exact ih ys (i + 1) s h
      · rw [pendingRun_cons_other c _ i stack hc hc2] at h ⊢
        exact ih ys (i + 1) stack h

theorem pendingRun_append_some :
    ∀ (xs : List Char) (ys : List Char) (i : Nat) (stack st' : List Nat),
      pendingRun xs i stack = some st' →
      pendingRun (xs ++ ys) i stack = pendingRun ys (i + xs.length) st' := by
  intro xs
  induction xs with
  | nil =>
    intro ys i stack st' h
    rw [pendingRun_nil] at h
    injection h with h
    subst h
    simp
  | cons c rest ih =>
    intro ys i stack st' h
    rw [List.cons_append]
    by_cases hc : c = '['
    · subst hc
      rw [pendingRun_cons_open] at h ⊢
      rw [ih ys (i + 1) (i :: stack) st' h]
      rw [show i + 1 + rest.length = i + ('[' :: rest).length by simp; omega]
    · by_cases hc2 : c = ']'
      · subst hc2
        match stack with
        | [] => rw [pendingRun_cons_close_nil] at h; exact absurd h (by simp)
        | o :: s =>
          rw [pendingRun_cons_close_cons] at h ⊢
          rw [ih ys (i + 1) s st' h]
          rw [show i + 1 + rest.length = i + (']' :: rest).length by simp; omega]
      · rw [pendingRun_cons_other c _ i stack hc hc2] at h ⊢
        rw [ih ys (i + 1) stack st' h]
        rw [show i + 1 + rest.length = i + (c :: rest).length by simp; omega]

/-- If the scan reports an unmatched `]` at position `p`, then `p` holds a `]`
inside the remaining source and the pending stack is empty exactly when the
scan reaches `p`. -/
theorem scanAux_close_report :
    ∀ (rem : List Char) (i : Nat) (stack : List Nat) (m : BMap) (p : Nat),
      scanAux rem i stack m = .error (.unmatchedClose p) →
      i ≤ p ∧ p < i + rem.length ∧ rem.getD (p - i) ' ' = ']'
        ∧ pendingRun (rem.take (p - i)) i stack = some [] := by
  intro rem
  induction rem with
  | nil =>
    intro i stack m p h
    match stack with
    | [] => exact absurd h (by simp [scanAux])
    | top :: s => exact absurd h (by simp [scanAux])
  | cons c rest ih =>
    intro i stack m p h
    unfold scanAux at h
    by_cases hc : c = '['
    · rw [if_pos hc] at h
      obtain ⟨ih1, ih2, ih3, ih4⟩ := ih (i + 1) (i :: stack) m p h
      refine ⟨by omega, by simp; omega, ?_, ?_⟩
      · rw [show p - i = (p - (i + 1)) + 1 by omega, List.getD_cons_succ]
        exact ih3
      · rw [show p - i = (p - (i + 1)) + 1 by omega, List.take_succ_cons]
        subst hc
        rw [pendingRun_cons_open]
        exact ih4
    · rw [if_neg hc] at h
      by_cases hc2 : c = ']'
      · rw [if_pos hc2] at h
        match stack with
        | [] =>
          have hp : p = i := by
            have := h
            simp only [Except.error.injEq, Err.unmatchedClose.injEq] at this
            omega
          subst hp
          refine ⟨le_refl p, by simp, ?_, ?_⟩
          · rw [Nat.sub_self, List.getD_cons_zero]; exact hc2
          · rw [Nat.sub_self, List.take_zero, pendingRun_nil]
        | o :: s =>
          obtain ⟨ih1, ih2, ih3, ih4⟩ := ih (i + 1) s ((i, o) :: (o, i) :: m) p h
          refine ⟨by omega, by simp; omega, ?_, ?_⟩
          · rw [show p - i = (p - (i + 1)) + 1 by omega, List.getD_cons_succ]
            exact ih3
          · rw [show p - i = (p - (i + 1)) + 1 by omega, List.take_succ_cons]
            subst hc2
            rw [pendingRun_cons_close_cons]
            exact ih4
      · rw [if_neg hc2] at h
        obtain ⟨ih1, ih2, ih3, ih4⟩ := ih (i + 1) stack m p h
        refine ⟨by omega, by simp; omega, ?_, ?_⟩
        · rw [show p - i = (p - (i + 1)) + 1 by omega, List.getD_cons_succ]
          exact ih3
        · rw [show p - i = (p - (i + 1)) + 1 by omega, List.take_succ_cons]
          rw [pendingRun_cons_other c _ i stack hc hc2]
          exact ih4

/-- If the scan reports an unmatched `[` at position `j`, then the pending
stack left by the whole scan exists and has `j` on top. -/
theorem scanAux_open_report :
    ∀ (rem : List Char) (i : Nat) (stack : List Nat) (m : BMap) (j : Nat),
      scanAux rem i stack m = .error (.unmatchedOpen j) →
      ∃ tl, pendingRun rem i stack = some (j :: tl) := by
  intro rem
  induction rem with
  | nil =>
    intro i stack m j h
    match stack with
    | [] => exact absurd h (by simp [scanAux])
    | top :: s =>
      have : top = j := by
        simpa [scanAux] using h
      subst this
      exact ⟨s, pendingRun_nil i _⟩
  | cons c rest ih =>
    intro i stack m j h
    unfold scanAux at h
    by_cases hc : c = '['
    · rw [if_pos hc] at h
      subst hc
      rw [pendingRun_cons_open]
      exact ih (i + 1) (i :: stack) m j h
    · rw [if_neg hc] at h
      by_cases hc2 : c = ']'
      · rw [if_pos hc2] at h
        match stack with
        | [] => exact absurd h (by simp)
        | o :: s =>
          subst hc2
          rw [pendingRun_cons_close_cons]
          exact ih (i + 1) s _ j h
      · rw [if_neg hc2] at h
        rw [pendingRun_cons_other c _ i stack hc hc2]
        exact ih (i + 1) stack m j h

/-- Every position on the pending stack after a successful scan of a source
fragment is either from the initial stack or an in-range `[`
position; the stack is strictly decreasing from the top (most recent first). -/
theorem pendingRun_inv :
    ∀ (l : List Char) (i : Nat) (stack st' : List Nat),
      pendingRun l i stack = some st' →
      (∀ p ∈ stack, p < i) →
      stack.Pairwise (· > ·) →
      (st'.Pairwise (· > ·)
        ∧ ∀ p ∈ st', p ∈ stack ∨ (i ≤ p ∧ p < i + l.length ∧ l.getD (p - i) ' ' = '[')) := by
  intro l
  induction l with
  | nil =>
    intro i stack st' h _ h2
    rw [pendingRun_nil] at h
    injection h with h
    subst h
    exact ⟨h2, fun p hp => Or.inl hp⟩
  | cons c rest ih =>
    intro i stack st' h h1 h2
    by_cases hc : c = '['
    · subst hc
      rw [pendingRun_cons_open] at h
      have h1' : ∀ p ∈ i :: stack, p < i + 1 := by
        intro p hp
        rcases List.mem_cons.mp hp with rfl | hp
        · omega
        · have := h1 p hp; omega
      have h2' : (i :: stack).Pairwise (· > ·) :=
        List.pairwise_cons.mpr ⟨fun p hp => h1 p hp, h2⟩
      obtain ⟨P, Mem⟩ := ih (i + 1) (i :: stack) st' h h1' h2'
      refine ⟨P, ?_⟩
      intro p hp
      rcases Mem p hp with hpm | ⟨hge, hlt, hch⟩
      · rcases List.mem_cons.mp hpm with rfl | hpm
        · exact Or.inr ⟨le_refl p, by simp, by simp⟩
        · exact Or.inl hpm
      · refine Or.inr ⟨by omega, by simp; omega, ?_⟩
        rw [show p - i = (p - (i + 1)) + 1 by omega, List.getD_cons_succ]
        exact hch
    · by_cases hc2 : c = ']'
      · subst hc2
        match stack with
        | [] => rw [pendingRun_cons_close_nil] at h; exact absurd h (by simp)
        | o :: s =>
          rw [pendingRun_cons_close_cons] at h
          have h1' : ∀ p ∈ s, p < i + 1 := by
            intro p hp; have := h1 p (by simp [hp]); omega
          have h2' : s.Pairwise (· > ·) := (List.pairwise_cons.mp h2).2
          obtain ⟨P, Mem⟩ := ih (i + 1) s st' h h1' h2'
          refine ⟨P, ?_⟩
          intro p hp
          rcases Mem p hp with hpm | ⟨hge, hlt, hch⟩
          · exact Or.inl (by simp [hpm])
          · refine Or.inr ⟨by omega, by simp; omega, ?_⟩
            rw [show p - i = (p - (i + 1)) + 1 by omega, List.getD_cons_succ]
            exact hch
      · rw [pendingRun_cons_other c _ i stack hc hc2] at h
        have h1' : ∀ p ∈ stack, p < i + 1 := by
          intro p hp; have := h1 p hp; omega
        obtain ⟨P, Mem⟩ := ih (i + 1) stack st' h h1' h2
        refine ⟨P, ?_⟩
        intro p hp
        rcases Mem p hp with hpm | ⟨hge, hlt, hch⟩
        · exact Or.inl hpm
        · refine Or.inr ⟨by omega, by simp; omega, ?_⟩
          rw [show p - i = (p - (i + 1)) + 1 by omega, List.getD_cons_succ]
          exact hch

/-- Claim C3: a program with an unmatched bracket makes both entry points
fail with the scan's error before any instruction runs (the result is exactly
that error — no output, no state effects).  An unmatched-closing report at
`p` means position `p` holds a `]` reached with an empty pending-open stack
(`pendingRun (code.take p) 0 [] = some []`), and no earlier position is such a
`]`; an unmatched-opening report at `j` means the full scan's pending stack
has `j` on top — the most recently opened of the still-unclosed `[`s, all of
which lie below `j` and are in-range `[` positions. -/
theorem bracket_error_report (code : List Char) (input : List Nat) (M MO : Nat) (e : Err)
    (h : buildBracketMap code = .error e) :
    brainfuck code input M = .error e
    ∧ brainfuckBytes code input M MO = .error e
    ∧ (∀ p, e = .unmatchedClose p →
        p < code.length ∧ code.getD p ' ' = ']'
        ∧ pendingRun (code.take p) 0 [] = some []
        ∧ ∀ k, k < p → ¬(code.getD k ' ' = ']' ∧ pendingRun (code.take k) 0 [] = some []))
    ∧ (∀ j, e = .unmatchedOpen j →
        j < code.length ∧ code.getD j ' ' = '['
        ∧ ∃ tl, pendingRun code 0 [] = some (j :: tl)
          ∧ (∀ p ∈ tl, p < j)
          ∧ (∀ p ∈ j :: tl, p < code.length ∧ code.getD p ' ' = '[')) := by
  refine ⟨brainfuck_scan_err code input M e h,
    brainfuckBytes_scan_err code input M MO e h, ?_, ?_⟩
  · intro p hp
    subst hp
    obtain ⟨h1, h2, h3, h4⟩ := scanAux_close_report code 0 [] [] p h
    have hp3 : code.getD p ' ' = ']' := by simpa using h3
    have hp4 : pendingRun (code.take p) 0 [] = some [] := by simpa using h4
    refine ⟨by omega, hp3, hp4, ?_⟩
    rintro k hk ⟨hkc, hkp⟩
    have hklen : k < code.length := by omega
    have e1 : code.take (k + 1) = code.take k ++ [code.getD k ' '] := by
      rw [List.take_succ, List.getElem?_eq_getElem hklen]
      congr 1
      simp [List.getD_eq_getElem?_getD, List.getElem?_eq_getElem hklen]
    have e2 : pendingRun (code.take (k + 1)) 0 [] = none := by
      rw [e1, pendingRun_append_some (code.take k) _ 0 [] [] hkp, hkc]
      exact pendingRun_cons_close_nil [] _
    have e3 : code.take p = code.take (k + 1) ++ (code.drop (k + 1)).take (p - (k + 1)) := by
      rw [← List.take_add code (k + 1) (p - (k + 1))]
      congr 1
      omega
    rw [e3, pendingRun_append_none _ _ 0 [] e2] at hp4
    exact absurd hp4 (by simp)
  · intro j hj
    subst hj
    obtain ⟨tl, htl⟩ := scanAux_open_report code 0 [] [] j h
    obtain ⟨P, Mem⟩ := pendingRun_inv code 0 [] (j :: tl) htl (by simp) (by simp)
    rcases Mem j (by simp) with hjm | ⟨_, hjlt, hjc⟩
    · exact absurd hjm (by simp)
    · refine ⟨by simpa using hjlt, by simpa using hjc, tl, htl,
        fun p hp => (List.pairwise_cons.mp P).1 p hp, ?_⟩
      intro p hp
      rcases Mem p hp with hpm | ⟨_, hplt, hpc⟩
      · exact absurd hpm (by simp)
      · exact ⟨by simpa using hplt, by simpa using hpc⟩

/-- Witness for C3: the program `"[["` has two unclosed `[`s; the reported
position is 1 — the most recently opened (top of stack), not 0 — and both
entry points fail with that error. -/
theorem bracket_error_report_witness :
    buildBracketMap ['[', '['] = .error (.unmatchedOpen 1)
    ∧ brainfuck ['[', '['] [] 9 = .error (.unmatchedOpen 1)
    ∧ brainfuckBytes ['[', '['] [] 9 9 = .error (.unmatchedOpen 1) :=
  ⟨by decide,
    (bracket_error_report ['[', '['] [] 9 9 (.unmatchedOpen 1) (by decide)).1,
    (bracket_error_report ['[', '['] [] 9 9 (.unmatchedOpen 1) (by decide)).2.1⟩

/-! ## Text/byte engine simulation -/

theorem isInstr_eq_false_iff (c : Char) :
    isInstr c = false ↔
      (c ≠ '>' ∧ c ≠ '<' ∧ c ≠ '+' ∧ c ≠ '-' ∧ c ≠ '.' ∧ c ≠ ',' ∧ c ≠ '[' ∧ c ≠ ']') := by
  simp [isInstr]
  tauto

/-- The output accumulated by a text-mode step extends the previous output. -/
theorem execStepT_output_ext (code : List Char) (bm : BMap) (input : List Nat) (st : StT) :
    ∃ d, (execStepT code bm input st).output = st.output ++ d := by
  unfold execStepT
  split
  case _ => exact ⟨[], by simp⟩
  case _ => exact ⟨[], by simp⟩
  case _ => exact ⟨[], by simp⟩
  case _ => exact ⟨[], by simp⟩
  case _ => exact ⟨[Char.ofNat (st.tape st.dp)], rfl⟩
  case _ => split <;> exact ⟨[], by simp⟩
  case _ => split <;> exact ⟨[], by simp⟩
  case _ => split <;> exact ⟨[], by simp⟩
  case _ => exact ⟨[], by simp⟩

/-- The final output of a successful text-mode run extends the output already
accumulated at any intermediate state. -/
theorem loopT_output_ext (code : List Char) (bm : BMap) (input : List Nat) (M : Nat) :
    ∀ (rem : Nat) (st : StT) (out : List Char),
      loopT code bm input M rem st = .ok out → ∃ s, out = st.output ++ s := by
  intro rem
  induction rem with
  | zero =>
    intro st out h
    by_cases hip : st.ip < code.length
    · rw [loopT_zero code bm input M st hip] at h
      exact absurd h (by simp)
    · rw [loopT_exit code bm input M 0 st hip] at h
      injection h with h
      exact ⟨[], by simp [h]⟩
  | succ r ih =>
    intro st out h
    by_cases hip : st.ip < code.length
    · rw [loopT_succ code bm input M r st hip] at h
      obtain ⟨s, hs⟩ := ih (execStepT code bm input st) out h
      obtain ⟨d, hd⟩ := execStepT_output_ext code bm input st
      exact ⟨d ++ s, by rw [hs, hd, List.append_assoc]⟩
    · rw [loopT_exit code bm input M (r + 1) st hip] at h
      injection h with h
      exact ⟨[], by simp [h]⟩

/-- Correspondence between a text-mode and a byte-mode machine state: equal
but for the output, where the text output is the byte output rendered one
character per byte (`String.fromCharCode`). -/
def SimTB (t : StT) (b : StB) : Prop :=
  t.dp = b.dp ∧ t.ip = b.ip ∧ t.tape = b.tape ∧ t.inputPos = b.inputPos
    ∧ t.output = b.output.map Char.ofNat

/-- One step of the two engines in lockstep: from related states, the byte
engine either raises the output-limit error (only at a `.` with the output
already at the limit) or steps to a state related to the text engine's next
state. -/
theorem sim_step (code : List Char) (bm : BMap) (input : List Nat) (MO : Nat)
    (t : StT) (b : StB) (hsim : SimTB t b) :
    (code.getD t.ip ' ' = '.' ∧ MO ≤ b.output.length
      ∧ execStepB code bm input MO b = .error (.outputLimit MO))
    ∨ (∃ b', execStepB code bm input MO b = .ok b'
        ∧ SimTB (execStepT code bm input t) b') := by
  obtain ⟨hdp, hip, htape, hin, hout⟩ := hsim
  have hfetch : code.getD b.ip ' ' = code.getD t.ip ' ' := by rw [hip]
  by_cases h1 : code.getD t.ip ' ' = '>'
  · refine Or.inr ⟨_, stepB_gt code bm input MO b (hfetch.trans h1), ?_⟩
    rw [stepT_gt code bm input t h1]
    exact ⟨by simp [hdp], by simp [hip], by simpa using htape, by simpa using hin,
      by simpa using hout⟩
  by_cases h2 : code.getD t.ip ' ' = '<'
  · refine Or.inr ⟨_, stepB_lt code bm input MO b (hfetch.trans h2), ?_⟩
    rw [stepT_lt code bm input t h2]
    exact ⟨by simp [hdp], by simp [hip], by simpa using htape, by simpa using hin,
      by simpa using hout⟩
  by_cases h3 : code.getD t.ip ' ' = '+'
  · refine Or.inr ⟨_, stepB_plus code bm input MO b (hfetch.trans h3), ?_⟩
    rw [stepT_plus code bm input t h3]
    exact ⟨by simp [hdp], by simp [hip], by simp [htape, hdp], by simpa using hin,
      by simpa using hout⟩
  by_cases h4 : code.getD t.ip ' ' = '-'
  · refine Or.inr ⟨_, stepB_minus code bm input MO b (hfetch.trans h4), ?_⟩
    rw [stepT_minus code bm input t h4]
    exact ⟨by simp [hdp], by simp [hip], by simp [htape, hdp], by simpa using hin,
      by simpa using hout⟩
  by_cases h5 : code.getD t.ip ' ' = '.'
  · by_cases hlen : MO ≤ b.output.length
    · exact Or.inl ⟨h5, hlen, stepB_dot_err code bm input MO b (hfetch.trans h5) hlen⟩
    · refine Or.inr ⟨_, stepB_dot_ok code bm input MO b (hfetch.trans h5) (by omega), ?_⟩
      rw [stepT_dot code bm input t h5]
      refine ⟨by simp [hdp], by simp [hip], by simpa using htape, by simpa using hin, ?_⟩
      simp only [List.map_append, List.map_cons, List.map_nil]
      rw [hout, htape, hdp]
  by_cases h6 : code.getD t.ip ' ' = ','
  · by_cases hpos : t.inputPos < input.length
    · refine Or.inr ⟨_, stepB_comma_lt code bm input MO b (hfetch.trans h6) (hin ▸ hpos), ?_⟩
      rw [stepT_comma_lt code bm input t h6 hpos]
      exact ⟨by simp [hdp], by simp [hip], by simp [htape, hdp, hin], by simp [hin],
        by simpa using hout⟩
    · refine Or.inr ⟨_, stepB_comma_ge code bm input MO b (hfetch.trans h6)
        (by omega : input.length ≤ b.inputPos), ?_⟩
      rw [stepT_comma_ge code bm input t h6 (by omega)]
      exact ⟨by simp [hdp], by simp [hip], by simp [htape, hdp], by simpa using hin,
        by simpa using hout⟩
  by_cases h7 : code.getD t.ip ' ' = '['
  · by_cases hz : t.tape t.dp = 0
    · refine Or.inr ⟨_, stepB_open_zero code bm input MO b (hfetch.trans h7)
        (by rw [← htape, ← hdp]; exact hz), ?_⟩
      rw [stepT_open_zero code bm input t h7 hz]
      exact ⟨by simpa using hdp, by simp [hip], by simpa using htape, by simpa using hin,
        by simpa using hout⟩
    · refine Or.inr ⟨_, stepB_open_nonzero code bm input MO b (hfetch.trans h7)
        (by rw [← htape, ← hdp]; exact hz), ?_⟩
      rw [stepT_open_nonzero code bm input t h7 hz]
      exact ⟨by simpa using hdp, by simp [hip], by simpa using htape, by simpa using hin,
        by simpa using hout⟩
  by_cases h8 : code.getD t.ip ' ' = ']'
  · by_cases hz : t.tape t.dp ≠ 0
    · refine Or.inr ⟨_, stepB_close_nonzero code bm input MO b (hfetch.trans h8)
        (by rw [← htape, ← hdp]; exact hz), ?_⟩
      rw [stepT_close_nonzero code bm input t h8 hz]
      exact ⟨by simpa using hdp, by simp [hip], by simpa using htape, by simpa using hin,
        by simpa using hout⟩
    · have hz0 : t.tape t.dp = 0 := by omega
      refine Or.inr ⟨_, stepB_close_zero code bm input MO b (hfetch.trans h8)
        (by rw [← htape, ← hdp]; exact hz0), ?_⟩
      rw [stepT_close_zero code bm input t h8 hz0]
      exact ⟨by simpa using hdp, by simp [hip], by simpa using htape, by simpa using hin,
        by simpa using hout⟩
  · have hni : isInstr (code.getD t.ip ' ') = false :=
      (isInstr_eq_false_iff _).mpr ⟨h1, h2, h3, h4, h5, h6, h7, h8⟩
    refine Or.inr ⟨_, stepB_other code bm input MO b (by rw [hfetch]; exact hni), ?_⟩
    rw [stepT_other code bm input t hni]
    exact ⟨by simpa using hdp, by simp [hip], by simpa using htape, by simpa using hin,
      by simpa using hout⟩

/-- Lockstep simulation, success direction: a successful text-mode run whose
output fits within the byte-mode limit is reproduced by the byte-mode loop
from any related state, byte for character. -/
theorem loopTB_sim_ok (code : List Char) (bm : BMap) (input : List Nat) (M MO : Nat) :
    ∀ (rem : Nat) (t : StT) (b : StB) (out : List Char),
      SimTB t b → loopT code bm input M rem t = .ok out → out.length ≤ MO →
      ∃ bs, loopB code bm input M MO rem b = .ok bs ∧ out = bs.map Char.ofNat := by
  intro rem
  induction rem with
  | zero =>
    intro t b out hsim h hle
    obtain ⟨hdp, hip, htape, hin, hout⟩ := hsim
    by_cases hipT : t.ip < code.length
    · rw [loopT_zero code bm input M t hipT] at h
      exact absurd h (by simp)
    · rw [loopT_exit code bm input M 0 t hipT] at h
      injection h with h
      refine ⟨b.output, loopB_exit code bm input M MO 0 b (by omega), ?_⟩
      rw [← h, hout]
  | succ r ih =>
    intro t b out hsim h hle
    by_cases hipT : t.ip < code.length
    · have hipB : b.ip < code.length := by
        have := hsim.2.1; omega
      rw [loopT_succ code bm input M r t hipT] at h
      rcases sim_step code bm input MO t b hsim with ⟨hdot, hlen, _⟩ | ⟨b', hb', hsim'⟩
      · exfalso
        obtain ⟨s, hs⟩ := loopT_output_ext code bm input M r (execStepT code bm input t) out h
        rw [stepT_dot code bm input t hdot] at hs
        have : out.length = t.output.length + 1 + s.length := by
          rw [hs]; simp; omega
        have houtlen : t.output.length = b.output.length := by
          rw [hsim.2.2.2.2]; simp
        omega
      · rw [loopB_succ code bm input M MO r b hipB, hb']
        exact ih (execStepT code bm input t) b' out hsim' h hle
    · have hipB : ¬ b.ip < code.length := by
        have := hsim.2.1; omega
      rw [loopT_exit code bm input M (r + 1) t hipT] at h
      injection h with h
      refine ⟨b.output, loopB_exit code bm input M MO (r + 1) b hipB, ?_⟩
      rw [← h, hsim.2.2.2.2]

/-- Lockstep simulation, failure direction: a byte-mode failure that is not
the output-limit error (i.e. the step-limit error) occurs identically in the
text-mode loop from any related state. -/
theorem loopTB_sim_err (code : List Char) (bm : BMap) (input : List Nat) (M MO : Nat) :
    ∀ (rem : Nat) (t : StT) (b : StB) (e : Err),
      SimTB t b → loopB code bm input M MO rem b = .error e →
      (∀ L, e ≠ .outputLimit L) →
      loopT code bm input M rem t = .error e := by
  intro rem
  induction rem with
  | zero =>
    intro t b e hsim h hE
    by_cases hipB : b.ip < code.length
    · have hipT : t.ip < code.length := by
        have := hsim.2.1; omega
      rw [loopB_zero code bm input M MO b hipB] at h
      have he : e = .stepLimit M := by simpa using h.symm
      rw [loopT_zero code bm input M t hipT, he]
    · rw [loopB_exit code bm input M MO 0 b hipB] at h
      exact absurd h (by simp)
  | succ r ih =>
    intro t b e hsim h hE
    by_cases hipB : b.ip < code.length
    · have hipT : t.ip < code.length := by
        have := hsim.2.1; omega
      rw [loopB_succ code bm input M MO r b hipB] at h
      rcases sim_step code bm input MO t b hsim with ⟨_, _, herr⟩ | ⟨b', hb', hsim'⟩
      · rw [herr] at h
        have he : e = .outputLimit MO := by simpa using h.symm
        exact absurd he (hE MO)
      · rw [hb'] at h
        rw [loopT_succ code bm input M r t hipT]
        exact ih (execStepT code bm input t) b' e hsim' h hE
    · rw [loopB_exit code bm input M MO (r + 1) b hipB] at h
      exact absurd h (by simp)

/-- Claim C5: the two entry points refine each other.  If the text-mode run
succeeds and `maxOutput` is at least its output length, then the byte-mode run
(with no observer callback, the modelled default) succeeds with the byte
sequence whose character-by-character rendering (`Char.ofNat`, i.e.
`String.fromCharCode`) is the text output; and a byte-mode failure that is a
bracket or step-limit error (any error other than the output-limit error,
which is the whole taxonomy besides it) is raised identically by text mode. -/
theorem text_bytes_refinement (code : List Char) (input : List Nat) (M MO : Nat) :
    (∀ out, brainfuck code input M = .ok out → out.length ≤ MO →
      ∃ bs, brainfuckBytes code input M MO = .ok bs ∧ out = bs.map Char.ofNat)
    ∧ (∀ e, brainfuckBytes code input M MO = .error e → (∀ L, e ≠ .outputLimit L) →
      brainfuck code input M = .error e) := by
  cases hscan : buildBracketMap code with
  | error e0 =>
    constructor
    · intro out hok
      rw [brainfuck_scan_err code input M e0 hscan] at hok
      exact absurd hok (by simp)
    · intro e hbe _
      rw [brainfuckBytes_scan_err code input M MO e0 hscan] at hbe
      have : e0 = e := by simpa using hbe
      rw [brainfuck_scan_err code input M e0 hscan, this]
  | ok bm =>
    have hsim0 : SimTB initStT initStB := ⟨rfl, rfl, rfl, rfl, rfl⟩
    constructor
    · intro out hok hle
      rw [brainfuck_eq_loopT code input M bm hscan] at hok
      rw [brainfuckBytes_eq_loopB code input M MO bm hscan]
      exact loopTB_sim_ok code bm input M MO M initStT initStB out hsim0 hok hle
    · intro e hbe hE
      rw [brainfuckBytes_eq_loopB code input M MO bm hscan] at hbe
      rw [brainfuck_eq_loopT code input M bm hscan]
      exact loopTB_sim_err code bm input M MO M initStT initStB e hsim0 hbe hE

/-- Witness for C5: the program `"+."` outputs the single character of code 1
in text mode; byte mode with `maxOutput = 5` outputs the byte 1, matching
character for byte. -/
theorem text_bytes_refinement_witness :
    (brainfuck ['+', '.'] [] 9 = .ok [Char.ofNat 1] ∧ [Char.ofNat 1].length ≤ 5)
    ∧ ∃ bs, brainfuckBytes ['+', '.'] [] 9 5 = .ok bs
        ∧ [Char.ofNat 1] = bs.map Char.ofNat :=
  ⟨⟨by decide, by decide⟩,
    (text_bytes_refinement ['+', '.'] [] 9 5).1 [Char.ofNat 1] (by decide) (by decide)⟩
